import Mathlib

/-!
Shallow embedding of the VDF parser in src/vdf_value.rs of nu_plugin_vdf.

The Rust source is a recursive-descent parser over a peekable iterator of
Unicode scalar values.  Here the cursor is a `List Char` and every routine
that advances the cursor returns the remaining list.  The mutual recursion
between `parse_value` and its inner table loop is made total with an
explicit fuel argument; the top entry point `parse` supplies
`input.length + 1` fuel, which the lemma `parseValueF_isSome` proves
sufficient, so the fuel never runs out on the path `parse` takes.
-/

namespace Vdf

/-- Unicode White_Space test, mirroring Rust's `char::is_whitespace` used at
line 127 of vdf_value.rs.  The code points are exactly the characters with
the Unicode White_Space property. -/
def rustIsWhitespace (c : Char) : Bool :=
  let n := c.toNat
  n == 0x09 || n == 0x0A || n == 0x0B || n == 0x0C || n == 0x0D || n == 0x20 ||
  n == 0x85 || n == 0xA0 || n == 0x1680 || (0x2000 ≤ n && n ≤ 0x200A) ||
  n == 0x2028 || n == 0x2029 || n == 0x202F || n == 0x205F || n == 0x3000

attribute [irreducible] rustIsWhitespace

/-- State machine for `skip_whitespace` (vdf_value.rs lines 118-156).
Mode `false` is the whitespace-skipping loop; mode `true` is inside a
`//` comment.  The source stops a comment just before its `'\n'`/`'\r'`
terminator and lets the next whitespace pass consume it; since both
terminators are whitespace, consuming the terminator when leaving comment
mode (as done here) reaches the same cursor position. -/
def skipWhitespaceAux : Bool → List Char → List Char
  | _, [] => []
  | false, c :: cs =>
    if rustIsWhitespace c then skipWhitespaceAux false cs
    else if c = '/' then
      match cs with
      | '/' :: cs2 => skipWhitespaceAux true cs2
      | _ => c :: cs
    else c :: cs
  | true, c :: cs =>
    if c = '\n' || c = '\r' then skipWhitespaceAux false cs
    else skipWhitespaceAux true cs

/-- Entry point of the whitespace/comment skipper `skip_whitespace`. -/
def skipWhitespace (cs : List Char) : List Char := skipWhitespaceAux false cs

/-- Character-consuming loop of `parse_string` (vdf_value.rs lines 53-77):
`acc` is the accumulated literal `s`, `escaped` the escape flag.  An
unescaped `'"'` closes the string; an unescaped `'\'` sets the flag and is
dropped; any other character (or any character while escaped) is appended.
At end of input the partial literal is returned when `lossy`, otherwise
the unclosed-string error. -/
def parseStringLoop (lossy : Bool) : List Char → List Char → Bool → Except String (String × List Char)
  | [], acc, _ =>
    if lossy then .ok (⟨acc⟩, []) else .error "Unexpected end of input: unclosed string"
  | c :: cs, acc, escaped =>
    if c = '"' && !escaped then .ok (⟨acc⟩, cs)
    else if c = '\\' && !escaped then parseStringLoop lossy cs acc true
    else parseStringLoop lossy cs (acc ++ [c]) false

/-- The string lexer `parse_string` (vdf_value.rs lines 43-78): skip
whitespace/comments; if the next character is not `'"'` report "no string
here" leaving the cursor after the skip; otherwise consume the quote and
run the loop. -/
def parseString (cs : List Char) (lossy : Bool) : Except String (Option String × List Char) :=
  match skipWhitespace cs with
  | '"' :: rest =>
    match parseStringLoop lossy rest [] false with
    | .error e => .error e
    | .ok (s, r) => .ok (some s, r)
  | other => .ok (none, other)

/-- Output tree of the parser, `VdfValue` in vdf_value.rs lines 4-8.  A
table's entries are kept as the key-sorted association list that
`BTreeMap<String, VdfValue>` holds. -/
inductive VdfValue where
  | table : List (String × VdfValue) → VdfValue
  | value : String → VdfValue

/-- Strict codepoint-lexicographic order on char lists; agrees with the
byte-lexicographic `Ord` that Rust's `BTreeMap<String, _>` keys use,
because UTF-8 preserves codepoint order. -/
def charListLt : List Char → List Char → Bool
  | [], [] => false
  | [], _ :: _ => true
  | _ :: _, [] => false
  | a :: as, b :: bs =>
    if a.toNat < b.toNat then true
    else if b.toNat < a.toNat then false
    else charListLt as bs

/-- String order backing the `BTreeMap` key order. -/
def strLt (a b : String) : Bool := charListLt a.data b.data

/-- Insertion into the sorted association list, the behaviour of
`BTreeMap::insert`: keys stay strictly sorted and inserting an existing
key overwrites its value (last write wins). -/
def btInsert (k : String) (v : VdfValue) : List (String × VdfValue) → List (String × VdfValue)
  | [] => [(k, v)]
  | (k', v') :: rest =>
    if strLt k k' then (k, v) :: (k', v') :: rest
    else if k = k' then (k, v) :: rest
    else (k', v') :: btInsert k v rest

mutual

/-- The value parser `parse_value` (vdf_value.rs lines 80-116) with a fuel
argument making the recursion through nested tables total; `none` means
the fuel ran out.  After skipping whitespace: `'{'` opens a table parsed
by `parseTableLoopF`, `'"'` parses a scalar string, anything else
(including end of input) is "no value here" with the cursor after the
skip. -/
def parseValueF (lossy : Bool) : Nat → List Char → Option (Except String (Option VdfValue × List Char))
  | 0, _ => none
  | fuel+1, cs =>
    match skipWhitespace cs with
    | '{' :: rest =>
      (parseTableLoopF lossy fuel [] rest).map (Except.map (fun p => (some p.1, p.2)))
    | '"' :: _ =>
      match parseString (skipWhitespace cs) lossy with
      | .error e => some (.error e)
      | .ok (s, r) => some (.ok (s.map VdfValue.value, r))
    | other => some (.ok (none, other))

/-- The table loop inside `parse_value`'s `'{'` branch (vdf_value.rs lines
89-108), carrying the table built so far: skip whitespace; `'}'` closes
the table; otherwise lex a key (a found key must be followed by a value,
which is inserted, else the missing-value error) and a missing key that is
not a `'}'` is the unexpected-token error. -/
def parseTableLoopF (lossy : Bool) : Nat → List (String × VdfValue) → List Char → Option (Except String (VdfValue × List Char))
  | 0, _, _ => none
  | fuel+1, table, cs =>
    match skipWhitespace cs with
    | '}' :: rest => some (.ok (.table table, rest))
    | cs1 =>
      match parseString cs1 lossy with
      | .error e => some (.error e)
      | .ok (some key, rest1) =>
        match parseValueF lossy fuel rest1 with
        | none => none
        | some (.error e) => some (.error e)
        | some (.ok (some v, rest2)) => parseTableLoopF lossy fuel (btInsert key v table) rest2
        | some (.ok (none, _)) => some (.error "Unexpected end of input: missing value")
      | .ok (none, cur) =>
        if cur.head? ≠ some '}' then
          some (.error "Unexpected token in table: expected key or '\x7d'")
        else parseTableLoopF lossy fuel table cur

end

/-- Body of the entry point `parse` (vdf_value.rs lines 25-41),
parameterised by the fuel handed to the value parser: skip leading
whitespace, lex the root key, parse its value, and wrap the single pair
in the root table; the two `None` outcomes are the missing-root-key and
missing-value-for-root-key errors. -/
def parseF (lossy : Bool) (fuel : Nat) (cs : List Char) : Option (Except String VdfValue) :=
  match parseString (skipWhitespace cs) lossy with
  | .error e => some (.error e)
  | .ok (none, _) => some (.error "Unexpected end of input: missing root key")
  | .ok (some key, rest) =>
    match parseValueF lossy fuel rest with
    | none => none
    | some (.error e) => some (.error e)
    | some (.ok (none, _)) => some (.error "Unexpected end of input: missing value for root key")
    | some (.ok (some v, _)) => some (.ok (.table (btInsert key v [])))

/-- The public `parse(input, lossy)` of vdf_value.rs.  The fuel
`input.data.length + 1` is sufficient (theorem `parseF_isSome`), so the
default branch is never taken. -/
def parse (input : String) (lossy : Bool) : Except String VdfValue :=
  (parseF lossy (input.data.length + 1) input.data).getD (.error "insufficient fuel")

/-- Escape of a character list for rendering it as quoted VDF string
content: `'"'` and `'\'` get a preceding backslash, everything else is
kept as is.  Reading such content back through the lexer's escape rule
(drop the backslash, keep the next character literally) restores the
original list. -/
def escapeChars : List Char → List Char
  | [] => []
  | c :: cs =>
    if c = '"' || c = '\\' then '\\' :: c :: escapeChars cs
    else c :: escapeChars cs

/-- Rendering of a quoted string token. -/
def renderString (s : List Char) : List Char := '"' :: escapeChars s ++ ['"']

mutual

/-- Canonical rendering of a tree value as VDF text: a scalar as its
quoted string, a table as `{` followed by its rendered entries and `}`.
No separating whitespace is needed because tokens are self-delimiting. -/
def render : VdfValue → List Char
  | .value s => renderString s.data
  | .table es => '{' :: renderEntries es ++ ['}']

/-- Rendering of a table's entries: each key as a quoted string followed
by its rendered value. -/
def renderEntries : List (String × VdfValue) → List Char
  | [] => []
  | (k, v) :: rest => renderString k.data ++ render v ++ renderEntries rest

end

/-- Test that an association list is strictly sorted by key in the
`BTreeMap` order, i.e. is a list `BTreeMap` iteration could produce. -/
def sortedKeys : List (String × VdfValue) → Bool
  | [] => true
  | [_] => true
  | (k, _) :: (k', v') :: rest => strLt k k' && sortedKeys ((k', v') :: rest)

mutual

/-- Test that every table inside a value holds a strictly key-sorted
entry list, so the value is one the parser (which builds tables with
`btInsert`) could output. -/
def canonical : VdfValue → Bool
  | .value _ => true
  | .table es => sortedKeys es && canonicalList es

/-- List version of `canonical` for a table's entries. -/
def canonicalList : List (String × VdfValue) → Bool
  | [] => true
  | (_, v) :: rest => canonical v && canonicalList rest

end

/-- Scanner modes for `stripCM`: outside any token, inside a `//` comment,
or inside a quoted string carrying the lexer's escape flag. -/
inductive SMode where
  | out : SMode
  | com : SMode
  | str : Bool → SMode

/-- Comment removal, the input transformation named by the specification's
comment property: delete every `//` comment (from the `//` up to, and not
including, the next `'\n'`/`'\r'` or end of input) that occurs outside a
quoted string, and keep quoted string content, including any `//` inside
it, untouched.  The string mode follows the lexer's escape rule so that an
escaped `'"'` does not end the string. -/
def stripCM : SMode → List Char → List Char
  | _, [] => []
  | .out, '/' :: '/' :: cs => stripCM .com cs
  | .out, c :: cs =>
    if c = '"' then c :: stripCM (.str false) cs
    else c :: stripCM .out cs
  | .com, c :: cs =>
    if c = '\n' || c = '\r' then c :: stripCM .out cs
    else stripCM .com cs
  | .str true, c :: cs => c :: stripCM (.str false) cs
  | .str false, c :: cs =>
    if c = '"' then c :: stripCM .out cs
    else if c = '\\' then c :: stripCM (.str true) cs
    else c :: stripCM (.str false) cs

/-! Facts about individual characters. -/

theorem ws_quote : rustIsWhitespace '"' = false := by with_unfolding_all rfl

theorem ws_slash : rustIsWhitespace '/' = false := by with_unfolding_all rfl

theorem ws_lcurl : rustIsWhitespace '{' = false := by with_unfolding_all rfl

theorem ws_rcurl : rustIsWhitespace '}' = false := by with_unfolding_all rfl

/-! Unfolding equations for the whitespace/comment skipper, one per kind of
step the source loop takes. -/

theorem skipAux_nil (m : Bool) : skipWhitespaceAux m [] = [] := by cases m <;> rfl

theorem skipAux_ws {c : Char} (cs : List Char) (h : rustIsWhitespace c = true) :
    skipWhitespaceAux false (c :: cs) = skipWhitespaceAux false cs := by
  rw [skipWhitespaceAux.eq_def]; simp [h]

theorem skipAux_comment (cs : List Char) :
    skipWhitespaceAux false ('/' :: '/' :: cs) = skipWhitespaceAux true cs := by
  rw [skipWhitespaceAux.eq_def]; simp [ws_slash]

theorem skipAux_other {c : Char} (cs : List Char) (h1 : rustIsWhitespace c = false)
    (h2 : c ≠ '/') : skipWhitespaceAux false (c :: cs) = c :: cs := by
  rw [skipWhitespaceAux.eq_def]; simp [h1, h2]

theorem skipAux_slash_nil : skipWhitespaceAux false ['/'] = ['/'] := by
  rw [skipWhitespaceAux.eq_def]; simp [ws_slash]

theorem skipAux_slash {c : Char} (cs : List Char) (h : c ≠ '/') :
    skipWhitespaceAux false ('/' :: c :: cs) = '/' :: c :: cs := by
  rw [skipWhitespaceAux.eq_def]; simp [ws_slash, h]

theorem skipAux_com_nl {c : Char} (cs : List Char) (h : c = '\n' ∨ c = '\r') :
    skipWhitespaceAux true (c :: cs) = skipWhitespaceAux false cs := by
  rw [skipWhitespaceAux.eq_def]; rcases h with h | h <;> simp [h]

theorem skipAux_com_other {c : Char} (cs : List Char) (h1 : c ≠ '\n') (h2 : c ≠ '\r') :
    skipWhitespaceAux true (c :: cs) = skipWhitespaceAux true cs := by
  rw [skipWhitespaceAux.eq_def]; simp [h1, h2]

/-! Structural facts about the skipper. -/

theorem skipAux_length (m : Bool) (cs : List Char) :
    (skipWhitespaceAux m cs).length ≤ cs.length := by
  induction m, cs using skipWhitespaceAux.induct <;> rw [skipWhitespaceAux.eq_def] <;>
    simp_all <;> omega

theorem skipWhitespace_length (cs : List Char) : (skipWhitespace cs).length ≤ cs.length :=
  skipAux_length false cs

/-- Shape of a skipper result: empty, or headed by a non-whitespace
character that does not begin a `//` comment. -/
theorem skipAux_shape (m : Bool) (cs : List Char) :
    skipWhitespaceAux m cs = [] ∨
      ∃ c r, skipWhitespaceAux m cs = c :: r ∧ rustIsWhitespace c = false ∧
        (c = '/' → r.head? ≠ some '/') := by
  induction m, cs using skipWhitespaceAux.induct
  case case1 m => left; exact skipAux_nil m
  case case2 c cs h ih => rw [skipAux_ws cs h]; exact ih
  case case3 cs2 _ ih => rw [skipAux_comment]; exact ih
  case case4 cs hne _ =>
    right
    refine ⟨'/', cs, ?_, ws_slash, fun _ => ?_⟩
    · cases cs with
      | nil => exact skipAux_slash_nil
      | cons d t =>
        refine skipAux_slash t fun hd => hne t ?_
        rw [hd]
    · cases cs with
      | nil => simp
      | cons d t =>
        simp only [List.head?_cons, ne_eq, Option.some.injEq]
        intro hd
        exact hne t (by rw [hd])
  case case5 c cs hws hslash =>
    right
    exact ⟨c, cs, skipAux_other cs (by simpa using hws) hslash,
      by simpa using hws, fun hc => absurd hc hslash⟩
  case case6 c cs h ih =>
    rw [skipAux_com_nl cs (by simpa using h)]; exact ih
  case case7 c cs h ih =>
    rw [skipAux_com_other cs (by simp at h; exact h.1) (by simp at h; exact h.2)]; exact ih

theorem skipWhitespace_no_comment (cs : List Char) :
    ∀ r, skipWhitespace cs ≠ '/' :: '/' :: r := by
  intro r heq
  rcases skipAux_shape false cs with h | ⟨c, t, h, _, hs⟩
  · rw [skipWhitespace] at heq; rw [h] at heq; exact List.noConfusion heq
  · rw [skipWhitespace] at heq; rw [h] at heq
    obtain ⟨hc, ht⟩ := List.cons.inj heq
    subst hc
    have := hs rfl
    rw [ht] at this
    simp at this

theorem skipWhitespace_idem (cs : List Char) :
    skipWhitespace (skipWhitespace cs) = skipWhitespace cs := by
  rcases skipAux_shape false cs with h | ⟨c, t, h, hws, hs⟩
  · rw [skipWhitespace, skipWhitespace, h, skipAux_nil]
  · rw [skipWhitespace, skipWhitespace, h]
    by_cases hc : c = '/'
    · subst hc
      cases t with
      | nil => exact skipAux_slash_nil
      | cons d t' =>
        refine skipAux_slash t' fun hd => ?_
        have := hs rfl
        rw [hd] at this
        simp at this
    · exact skipAux_other t hws hc

/-! Unfolding equations for the string lexer loop. -/

theorem parseStringLoop_nil (lossy : Bool) (acc : List Char) (esc : Bool) :
    parseStringLoop lossy [] acc esc =
      if lossy then .ok (⟨acc⟩, []) else .error "Unexpected end of input: unclosed string" := by
  rw [parseStringLoop.eq_def]

theorem parseStringLoop_close (lossy : Bool) (cs acc : List Char) :
    parseStringLoop lossy ('"' :: cs) acc false = .ok (⟨acc⟩, cs) := by
  rw [parseStringLoop.eq_def]; simp

theorem parseStringLoop_escape (lossy : Bool) (cs acc : List Char) :
    parseStringLoop lossy ('\\' :: cs) acc false = parseStringLoop lossy cs acc true := by
  rw [parseStringLoop.eq_def]; simp

theorem parseStringLoop_escaped (lossy : Bool) (c : Char) (cs acc : List Char) :
    parseStringLoop lossy (c :: cs) acc true = parseStringLoop lossy cs (acc ++ [c]) false := by
  rw [parseStringLoop.eq_def]; simp

theorem parseStringLoop_other (lossy : Bool) (c : Char) (cs acc : List Char)
    (h1 : c ≠ '"') (h2 : c ≠ '\\') :
    parseStringLoop lossy (c :: cs) acc false = parseStringLoop lossy cs (acc ++ [c]) false := by
  rw [parseStringLoop.eq_def]; simp [h1, h2]

theorem parseStringLoop_length (lossy : Bool) :
    ∀ (cs acc : List Char) (esc : Bool) (s : String) (rest : List Char),
      parseStringLoop lossy cs acc esc = .ok (s, rest) → rest.length ≤ cs.length := by
  intro cs
  induction cs with
  | nil =>
    intro acc esc s rest h
    rw [parseStringLoop_nil] at h
    cases lossy
    · simp at h
    · simp_all
  | cons c cs ih =>
    intro acc esc s rest h
    rw [parseStringLoop.eq_def] at h
    simp only [] at h
    by_cases h1 : (decide (c = '"') && !esc) = true
    · rw [if_pos h1] at h
      simp only [Except.ok.injEq, Prod.mk.injEq] at h
      rw [← h.2]
      simp
    · rw [if_neg h1] at h
      by_cases h2 : (decide (c = '\\') && !esc) = true
      · rw [if_pos h2] at h
        exact (ih _ _ _ _ h).trans (by simp)
      · rw [if_neg h2] at h
        exact (ih _ _ _ _ h).trans (by simp)

/-! Characterisation of the string lexer's outcomes. -/

theorem parseString_eq_nil {cs : List Char} (lossy : Bool) (h : skipWhitespace cs = []) :
    parseString cs lossy = .ok (none, []) := by
  rw [parseString, h]

theorem parseString_eq_quote {cs rest : List Char} (lossy : Bool)
    (h : skipWhitespace cs = '"' :: rest) :
    parseString cs lossy =
      match parseStringLoop lossy rest [] false with
      | .error e => .error e
      | .ok (s, r) => .ok (some s, r) := by
  rw [parseString, h]
  rfl

theorem parseString_eq_other {cs rest : List Char} {c : Char} (lossy : Bool)
    (h : skipWhitespace cs = c :: rest) (hc : c ≠ '"') :
    parseString cs lossy = .ok (none, c :: rest) := by
  rw [parseString, h]
  split
  · next heq => exact absurd (List.cons.inj heq.symm).1 (Ne.symm hc)
  · rfl

theorem parseString_none {cs : List Char} {lossy : Bool} {rest : List Char}
    (h : parseString cs lossy = .ok (none, rest)) :
    rest = skipWhitespace cs ∧ rest.head? ≠ some '"' := by
  cases hw : skipWhitespace cs with
  | nil => rw [parseString_eq_nil lossy hw] at h; cases h; simp
  | cons c t =>
    by_cases hc : c = '"'
    · subst hc
      rw [parseString_eq_quote lossy hw] at h
      cases hl : parseStringLoop lossy t [] false with
      | error e => rw [hl] at h; cases h
      | ok p => rw [hl] at h; cases h
    · rw [parseString_eq_other lossy hw hc] at h
      cases h
      simpa using hc

theorem parseString_some_length {cs : List Char} {lossy : Bool} {s : String} {rest : List Char}
    (h : parseString cs lossy = .ok (some s, rest)) : rest.length < cs.length := by
  cases hw : skipWhitespace cs with
  | nil => rw [parseString_eq_nil lossy hw] at h; simp at h
  | cons c t =>
    by_cases hc : c = '"'
    · subst hc
      rw [parseString_eq_quote lossy hw] at h
      cases hl : parseStringLoop lossy t [] false with
      | error e => rw [hl] at h; simp at h
      | ok p =>
        obtain ⟨s', r⟩ := p
        rw [hl] at h
        simp only [Except.ok.injEq, Prod.mk.injEq] at h
        obtain ⟨-, hr⟩ := h
        subst hr
        have h1 := parseStringLoop_length lossy t [] false s' r hl
        have h2 := skipWhitespace_length cs
        rw [hw] at h2
        simp at h2
        omega
    · rw [parseString_eq_other lossy hw hc] at h; simp at h

/-! Unfolding equations for the fueled value parser and table loop. -/

theorem parseValueF_zero (lossy : Bool) (cs : List Char) : parseValueF lossy 0 cs = none := by
  rw [parseValueF.eq_def]

theorem parseTableLoopF_zero (lossy : Bool) (tbl : List (String × VdfValue)) (cs : List Char) :
    parseTableLoopF lossy 0 tbl cs = none := by
  rw [parseTableLoopF.eq_def]

theorem parseValueF_succ (lossy : Bool) (fuel : Nat) (cs : List Char) :
    parseValueF lossy (fuel+1) cs =
      match skipWhitespace cs with
      | '{' :: rest =>
        (parseTableLoopF lossy fuel [] rest).map (Except.map (fun p => (some p.1, p.2)))
      | '"' :: _ =>
        (match parseString (skipWhitespace cs) lossy with
          | .error e => some (.error e)
          | .ok (s, r) => some (.ok (s.map VdfValue.value, r)))
      | other => some (.ok (none, other)) := rfl

theorem parseTableLoopF_succ (lossy : Bool) (fuel : Nat) (tbl : List (String × VdfValue))
    (cs : List Char) :
    parseTableLoopF lossy (fuel+1) tbl cs =
      match skipWhitespace cs with
      | '}' :: rest => some (.ok (.table tbl, rest))
      | cs1 =>
        (match parseString cs1 lossy with
          | .error e => some (.error e)
          | .ok (some key, rest1) =>
            match parseValueF lossy fuel rest1 with
            | none => none
            | some (.error e) => some (.error e)
            | some (.ok (some v, rest2)) => parseTableLoopF lossy fuel (btInsert key v tbl) rest2
            | some (.ok (none, _)) => some (.error "Unexpected end of input: missing value")
          | .ok (none, cur) =>
            if cur.head? ≠ some '}' then
              some (.error "Unexpected token in table: expected key or '\x7d'")
            else parseTableLoopF lossy fuel tbl cur) := rfl

theorem parseValueF_succ_table {cs rest : List Char} (lossy : Bool) (fuel : Nat)
    (h : skipWhitespace cs = '{' :: rest) :
    parseValueF lossy (fuel+1) cs =
      (parseTableLoopF lossy fuel [] rest).map (Except.map (fun p => (some p.1, p.2))) := by
  have e := parseValueF_succ lossy fuel cs
  rw [h] at e
  rw [e]
  rfl

theorem parseValueF_succ_quote {cs rest : List Char} (lossy : Bool) (fuel : Nat)
    (h : skipWhitespace cs = '"' :: rest) :
    parseValueF lossy (fuel+1) cs =
      match parseString (skipWhitespace cs) lossy with
      | .error e => some (.error e)
      | .ok (s, r) => some (.ok (s.map VdfValue.value, r)) := by
  have e := parseValueF_succ lossy fuel cs
  rw [h] at e
  rw [e, h]
  rfl

theorem parseValueF_succ_other {cs cs1 : List Char} (lossy : Bool) (fuel : Nat)
    (h : skipWhitespace cs = cs1) (h1 : cs1.head? ≠ some '{') (h2 : cs1.head? ≠ some '"') :
    parseValueF lossy (fuel+1) cs = some (.ok (none, cs1)) := by
  have e := parseValueF_succ lossy fuel cs
  rw [h] at e
  rw [e]
  split
  · simp at h1
  · simp at h2
  · rfl

theorem parseTableLoopF_succ_close {cs rest : List Char} (lossy : Bool) (fuel : Nat)
    (tbl : List (String × VdfValue)) (h : skipWhitespace cs = '}' :: rest) :
    parseTableLoopF lossy (fuel+1) tbl cs = some (.ok (.table tbl, rest)) := by
  have e := parseTableLoopF_succ lossy fuel tbl cs
  rw [h] at e
  rw [e]
  rfl

theorem parseTableLoopF_succ_go {cs cs1 : List Char} (lossy : Bool) (fuel : Nat)
    (tbl : List (String × VdfValue)) (h : skipWhitespace cs = cs1)
    (hne : cs1.head? ≠ some '}') :
    parseTableLoopF lossy (fuel+1) tbl cs =
      match parseString cs1 lossy with
      | .error e => some (.error e)
      | .ok (some key, rest1) =>
        match parseValueF lossy fuel rest1 with
        | none => none
        | some (.error e) => some (.error e)
        | some (.ok (some v, rest2)) => parseTableLoopF lossy fuel (btInsert key v tbl) rest2
        | some (.ok (none, _)) => some (.error "Unexpected end of input: missing value")
      | .ok (none, cur) =>
        if cur.head? ≠ some '}' then
          some (.error "Unexpected token in table: expected key or '\x7d'")
        else parseTableLoopF lossy fuel tbl cur := by
  have e := parseTableLoopF_succ lossy fuel tbl cs
  rw [h] at e
  rw [e]
  split
  · simp at hne
  · rfl

theorem parseString_skip (cs : List Char) (lossy : Bool) :
    parseString (skipWhitespace cs) lossy = parseString cs lossy := by
  rw [parseString, parseString, skipWhitespace_idem]

/-! Length bounds on the rest of the input returned by the fueled parser. -/

theorem parseVT_length (fuel : Nat) :
    (∀ (lossy : Bool) (cs : List Char) (v : Option VdfValue) (rest : List Char),
        parseValueF lossy fuel cs = some (.ok (v, rest)) → rest.length ≤ cs.length) ∧
    (∀ (lossy : Bool) (tbl : List (String × VdfValue)) (cs : List Char) (t : VdfValue)
        (rest : List Char),
        parseTableLoopF lossy fuel tbl cs = some (.ok (t, rest)) → rest.length < cs.length) := by
  induction fuel with
  | zero =>
    constructor
    · intro lossy cs v rest h; rw [parseValueF_zero] at h; simp at h
    · intro lossy tbl cs t rest h; rw [parseTableLoopF_zero] at h; simp at h
  | succ fuel ih =>
    obtain ⟨ihv, iht⟩ := ih
    constructor
    · intro lossy cs v rest h
      have hlen := skipWhitespace_length cs
      cases hw : skipWhitespace cs with
      | nil =>
        rw [parseValueF_succ_other lossy fuel hw (by simp) (by simp)] at h
        simp only [Option.some.injEq, Except.ok.injEq, Prod.mk.injEq] at h
        rw [← h.2]
        simp
      | cons c t0 =>
        rw [hw] at hlen
        by_cases hc1 : c = '{'
        · subst hc1
          rw [parseValueF_succ_table lossy fuel hw] at h
          cases ht : parseTableLoopF lossy fuel [] t0 with
          | none => rw [ht] at h; simp at h
          | some r =>
            rw [ht] at h
            cases r with
            | error e => simp [Except.map] at h
            | ok p =>
              obtain ⟨tv, r2⟩ := p
              simp only [Option.map_some', Except.map, Option.some.injEq, Except.ok.injEq,
                Prod.mk.injEq] at h
              obtain ⟨-, hr⟩ := h
              subst hr
              have := iht lossy [] t0 tv r2 ht
              simp at hlen
              omega
        · by_cases hc2 : c = '"'
          · subst hc2
            rw [parseValueF_succ_quote lossy fuel hw, parseString_skip] at h
            cases hps : parseString cs lossy with
            | error e => rw [hps] at h; simp at h
            | ok p =>
              obtain ⟨s?, r⟩ := p
              rw [hps] at h
              simp only [Option.some.injEq, Except.ok.injEq, Prod.mk.injEq] at h
              obtain ⟨-, hr⟩ := h
              subst hr
              cases s? with
              | some s => exact (parseString_some_length hps).le
              | none =>
                obtain ⟨hr2, -⟩ := parseString_none hps
                rw [hr2]
                exact skipWhitespace_length cs
          · rw [parseValueF_succ_other lossy fuel hw (by simp [hc1]) (by simp [hc2])] at h
            simp only [Option.some.injEq, Except.ok.injEq, Prod.mk.injEq] at h
            obtain ⟨-, hr⟩ := h
            rw [← hr, ← hw]
            exact skipWhitespace_length cs
    · intro lossy tbl cs t rest h
      have hlen := skipWhitespace_length cs
      by_cases hclose : ∃ r0, skipWhitespace cs = '}' :: r0
      · obtain ⟨r0, hw⟩ := hclose
        rw [parseTableLoopF_succ_close lossy fuel tbl hw] at h
        simp only [Option.some.injEq, Except.ok.injEq, Prod.mk.injEq] at h
        obtain ⟨-, hr⟩ := h
        subst hr
        rw [hw] at hlen
        simp at hlen
        omega
      · have hne : (skipWhitespace cs).head? ≠ some '}' := by
          intro hcon
          cases hw : skipWhitespace cs with
          | nil => rw [hw] at hcon; simp at hcon
          | cons c t0 =>
            rw [hw] at hcon
            simp at hcon
            exact hclose ⟨t0, by rw [hw, hcon]⟩
        rw [parseTableLoopF_succ_go lossy fuel tbl rfl hne] at h
        split at h
        · simp at h
        · next key rest1 heq =>
          rw [parseString_skip] at heq
          have hr1 := parseString_some_length heq
          split at h
          · simp at h
          · simp at h
          · next v rest2 heq2 =>
            have hr2 := ihv lossy rest1 (some v) rest2 heq2
            have hr3 := iht lossy (btInsert key v tbl) rest2 t rest h
            omega
          · simp at h
        · next cur heq =>
          rw [parseString_skip] at heq
          obtain ⟨hcur, -⟩ := parseString_none heq
          by_cases hh : cur.head? ≠ some '}'
          · rw [if_pos hh] at h; simp at h
          · push_neg at hh
            rw [hcur] at hh
            exact absurd hh hne

theorem parseValueF_length {lossy : Bool} {fuel : Nat} {cs : List Char} {v : Option VdfValue}
    {rest : List Char} (h : parseValueF lossy fuel cs = some (.ok (v, rest))) :
    rest.length ≤ cs.length :=
  (parseVT_length fuel).1 lossy cs v rest h

theorem parseTableLoopF_length {lossy : Bool} {fuel : Nat} {tbl : List (String × VdfValue)}
    {cs : List Char} {t : VdfValue} {rest : List Char}
    (h : parseTableLoopF lossy fuel tbl cs = some (.ok (t, rest))) :
    rest.length < cs.length :=
  (parseVT_length fuel).2 lossy tbl cs t rest h

/-! Atomic equations, one per execution path of the source. -/

theorem head_ne_of_no_cons {l : List Char} {c : Char} (h : ∀ r, l ≠ c :: r) :
    l.head? ≠ some c := by
  cases l with
  | nil => simp
  | cons d t =>
    simp only [List.head?_cons, ne_eq, Option.some.injEq]
    intro hd
    exact h t (by rw [hd])

theorem parseValueF_quote_error {cs rest : List Char} {lossy : Bool} {e : String} (fuel : Nat)
    (h : skipWhitespace cs = '"' :: rest) (hps : parseString cs lossy = .error e) :
    parseValueF lossy (fuel+1) cs = some (.error e) := by
  rw [parseValueF_succ_quote lossy fuel h, parseString_skip, hps]

theorem parseValueF_quote_ok {cs rest : List Char} {lossy : Bool} {s? : Option String}
    {r : List Char} (fuel : Nat) (h : skipWhitespace cs = '"' :: rest)
    (hps : parseString cs lossy = .ok (s?, r)) :
    parseValueF lossy (fuel+1) cs = some (.ok (s?.map VdfValue.value, r)) := by
  rw [parseValueF_succ_quote lossy fuel h, parseString_skip, hps]

theorem parseTableLoopF_go_error {cs cs1 : List Char} {lossy : Bool} {e : String} (fuel : Nat)
    (tbl : List (String × VdfValue)) (h : skipWhitespace cs = cs1)
    (hne : cs1.head? ≠ some '}') (hps : parseString cs1 lossy = .error e) :
    parseTableLoopF lossy (fuel+1) tbl cs = some (.error e) := by
  rw [parseTableLoopF_succ_go lossy fuel tbl h hne, hps]

theorem parseTableLoopF_go_key {cs cs1 : List Char} {lossy : Bool} {key : String}
    {rest1 : List Char} (fuel : Nat) (tbl : List (String × VdfValue))
    (h : skipWhitespace cs = cs1) (hne : cs1.head? ≠ some '}')
    (hps : parseString cs1 lossy = .ok (some key, rest1)) :
    parseTableLoopF lossy (fuel+1) tbl cs =
      match parseValueF lossy fuel rest1 with
      | none => none
      | some (.error e) => some (.error e)
      | some (.ok (some v, rest2)) => parseTableLoopF lossy fuel (btInsert key v tbl) rest2
      | some (.ok (none, _)) => some (.error "Unexpected end of input: missing value") := by
  rw [parseTableLoopF_succ_go lossy fuel tbl h hne, hps]

theorem parseTableLoopF_go_nokey {cs cs1 : List Char} {lossy : Bool} {cur : List Char}
    (fuel : Nat) (tbl : List (String × VdfValue)) (h : skipWhitespace cs = cs1)
    (hne : cs1.head? ≠ some '}') (hps : parseString cs1 lossy = .ok (none, cur)) :
    parseTableLoopF lossy (fuel+1) tbl cs =
      if cur.head? ≠ some '}' then
        some (.error "Unexpected token in table: expected key or '\x7d'")
      else parseTableLoopF lossy fuel tbl cur := by
  rw [parseTableLoopF_succ_go lossy fuel tbl h hne, hps]

/-- The no-key branch of the table loop always errors: the cursor the lexer
hands back cannot start with the closing brace, because the loop already
checked for it. -/
theorem parseTableLoopF_go_nokey_error {cs cs1 : List Char} {lossy : Bool} {cur : List Char}
    (fuel : Nat) (tbl : List (String × VdfValue)) (h : skipWhitespace cs = cs1)
    (hne : cs1.head? ≠ some '}') (hps : parseString cs1 lossy = .ok (none, cur)) :
    parseTableLoopF lossy (fuel+1) tbl cs =
      some (.error "Unexpected token in table: expected key or '\x7d'") := by
  rw [parseTableLoopF_go_nokey fuel tbl h hne hps]
  have hcur : cur = skipWhitespace cs1 := by
    have := parseString_none hps
    exact this.1
  rw [if_pos ?_]
  rw [hcur, ← h, skipWhitespace_idem, h]
  exact hne

/-! Fuel sufficiency: with more fuel than characters the parser cannot run
out. -/

theorem parseVT_isSome (fuel : Nat) :
    (∀ (lossy : Bool) (cs : List Char), cs.length < fuel →
        (parseValueF lossy fuel cs).isSome) ∧
    (∀ (lossy : Bool) (tbl : List (String × VdfValue)) (cs : List Char), cs.length < fuel →
        (parseTableLoopF lossy fuel tbl cs).isSome) := by
  induction fuel with
  | zero =>
    constructor
    · intro lossy cs h; exact absurd h (Nat.not_lt_zero _)
    · intro lossy tbl cs h; exact absurd h (Nat.not_lt_zero _)
  | succ fuel ih =>
    obtain ⟨ihv, iht⟩ := ih
    constructor
    · intro lossy cs hcs
      cases hw : skipWhitespace cs with
      | nil => rw [parseValueF_succ_other lossy fuel hw (by simp) (by simp)]; rfl
      | cons c t0 =>
        have hlen := skipWhitespace_length cs
        rw [hw] at hlen
        simp at hlen
        by_cases hc1 : c = '{'
        · subst hc1
          rw [parseValueF_succ_table lossy fuel hw]
          have := iht lossy [] t0 (by omega)
          simpa using this
        · by_cases hc2 : c = '"'
          · subst hc2
            cases hps : parseString cs lossy with
            | error e => rw [parseValueF_quote_error fuel hw hps]; rfl
            | ok p =>
              obtain ⟨s?, r⟩ := p
              rw [parseValueF_quote_ok fuel hw hps]; rfl
          · rw [parseValueF_succ_other lossy fuel hw (by simp [hc1]) (by simp [hc2])]; rfl
    · intro lossy tbl cs hcs
      by_cases hclose : ∃ r0, skipWhitespace cs = '}' :: r0
      · obtain ⟨r0, hw⟩ := hclose
        rw [parseTableLoopF_succ_close lossy fuel tbl hw]; rfl
      · have hne : (skipWhitespace cs).head? ≠ some '}' :=
          head_ne_of_no_cons (by push_neg at hclose; exact hclose)
        cases hps : parseString (skipWhitespace cs) lossy with
        | error e =>
          rw [parseTableLoopF_go_error fuel tbl rfl hne hps]; rfl
        | ok p =>
          obtain ⟨s?, r⟩ := p
          cases s? with
          | some key =>
            rw [parseTableLoopF_go_key fuel tbl rfl hne hps]
            have hr1 : r.length < cs.length := by
              rw [parseString_skip] at hps
              exact parseString_some_length hps
            cases hv : parseValueF lossy fuel r with
            | none =>
              have := ihv lossy r (by omega)
              rw [hv] at this
              simp at this
            | some rv =>
              cases rv with
              | error e => rfl
              | ok pv =>
                obtain ⟨v?, r2⟩ := pv
                cases v? with
                | some v =>
                  have hr2 := parseValueF_length hv
                  exact iht lossy (btInsert key v tbl) r2 (by omega)
                | none => rfl
          | none =>
            rw [parseTableLoopF_go_nokey_error fuel tbl rfl hne hps]; rfl

/-! Fuel monotonicity: a result obtained with some fuel is stable under
more fuel. -/

theorem parseVT_mono (fuel : Nat) :
    (∀ (fuel' : Nat) (lossy : Bool) (cs : List Char) r, fuel ≤ fuel' →
        parseValueF lossy fuel cs = some r → parseValueF lossy fuel' cs = some r) ∧
    (∀ (fuel' : Nat) (lossy : Bool) (tbl : List (String × VdfValue)) (cs : List Char) r,
        fuel ≤ fuel' →
        parseTableLoopF lossy fuel tbl cs = some r → parseTableLoopF lossy fuel' tbl cs = some r) := by
  induction fuel with
  | zero =>
    constructor
    · intro fuel' lossy cs r _ h; rw [parseValueF_zero] at h; simp at h
    · intro fuel' lossy tbl cs r _ h; rw [parseTableLoopF_zero] at h; simp at h
  | succ fuel ih =>
    obtain ⟨ihv, iht⟩ := ih
    constructor
    · intro fuel' lossy cs r hle h
      cases fuel' with
      | zero => omega
      | succ fuel'' =>
        have hle' : fuel ≤ fuel'' := by omega
        cases hw : skipWhitespace cs with
        | nil =>
          rw [parseValueF_succ_other lossy fuel hw (by simp) (by simp)] at h
          rw [parseValueF_succ_other lossy fuel'' hw (by simp) (by simp)]
          exact h
        | cons c t0 =>
          by_cases hc1 : c = '{'
          · subst hc1
            rw [parseValueF_succ_table lossy fuel hw] at h
            rw [parseValueF_succ_table lossy fuel'' hw]
            cases ht : parseTableLoopF lossy fuel [] t0 with
            | none => rw [ht] at h; simp at h
            | some r0 =>
              rw [iht fuel'' lossy [] t0 r0 hle' ht]
              rw [ht] at h
              exact h
          · by_cases hc2 : c = '"'
            · subst hc2
              cases hps : parseString cs lossy with
              | error e =>
                rw [parseValueF_quote_error fuel hw hps] at h
                rw [parseValueF_quote_error fuel'' hw hps]
                exact h
              | ok p =>
                obtain ⟨s?, r0⟩ := p
                rw [parseValueF_quote_ok fuel hw hps] at h
                rw [parseValueF_quote_ok fuel'' hw hps]
                exact h
            · rw [parseValueF_succ_other lossy fuel hw (by simp [hc1]) (by simp [hc2])] at h
              rw [parseValueF_succ_other lossy fuel'' hw (by simp [hc1]) (by simp [hc2])]
              exact h
    · intro fuel' lossy tbl cs r hle h
      cases fuel' with
      | zero => omega
      | succ fuel'' =>
        have hle' : fuel ≤ fuel'' := by omega
        by_cases hclose : ∃ r0, skipWhitespace cs = '}' :: r0
        · obtain ⟨r0, hw⟩ := hclose
          rw [parseTableLoopF_succ_close lossy fuel tbl hw] at h
          rw [parseTableLoopF_succ_close lossy fuel'' tbl hw]
          exact h
        · have hne : (skipWhitespace cs).head? ≠ some '}' :=
            head_ne_of_no_cons (by push_neg at hclose; exact hclose)
          cases hps : parseString (skipWhitespace cs) lossy with
          | error e =>
            rw [parseTableLoopF_go_error fuel tbl rfl hne hps] at h
            rw [parseTableLoopF_go_error fuel'' tbl rfl hne hps]
            exact h
          | ok p =>
            obtain ⟨s?, r0⟩ := p
            cases s? with
            | some key =>
              rw [parseTableLoopF_go_key fuel tbl rfl hne hps] at h
              rw [parseTableLoopF_go_key fuel'' tbl rfl hne hps]
              cases hv : parseValueF lossy fuel r0 with
              | none => rw [hv] at h; simp at h
              | some rv =>
                rw [ihv fuel'' lossy r0 rv hle' hv]
                rw [hv] at h
                cases rv with
                | error e => exact h
                | ok pv =>
                  obtain ⟨v?, r2⟩ := pv
                  cases v? with
                  | some v => exact iht fuel'' lossy (btInsert key v tbl) r2 r hle' h
                  | none => exact h
            | none =>
              rw [parseTableLoopF_go_nokey_error fuel tbl rfl hne hps] at h
              rw [parseTableLoopF_go_nokey_error fuel'' tbl rfl hne hps]
              exact h

/-! Atomic equations and fuel facts for the entry point. -/

theorem parseF_error {cs : List Char} {lossy : Bool} {e : String} (fuel : Nat)
    (hps : parseString cs lossy = .error e) : parseF lossy fuel cs = some (.error e) := by
  unfold parseF
  rw [parseString_skip, hps]

theorem parseF_nokey {cs : List Char} {lossy : Bool} {r : List Char} (fuel : Nat)
    (hps : parseString cs lossy = .ok (none, r)) :
    parseF lossy fuel cs = some (.error "Unexpected end of input: missing root key") := by
  unfold parseF
  rw [parseString_skip, hps]

theorem parseF_key {cs : List Char} {lossy : Bool} {key : String} {rest : List Char} (fuel : Nat)
    (hps : parseString cs lossy = .ok (some key, rest)) :
    parseF lossy fuel cs =
      match parseValueF lossy fuel rest with
      | none => none
      | some (.error e) => some (.error e)
      | some (.ok (none, _)) =>
        some (.error "Unexpected end of input: missing value for root key")
      | some (.ok (some v, _)) => some (.ok (.table (btInsert key v []))) := by
  unfold parseF
  rw [parseString_skip, hps]

theorem parseF_isSome (lossy : Bool) (fuel : Nat) (cs : List Char) (h : cs.length < fuel) :
    (parseF lossy fuel cs).isSome := by
  cases hps : parseString cs lossy with
  | error e => rw [parseF_error fuel hps]; rfl
  | ok p =>
    obtain ⟨s?, r⟩ := p
    cases s? with
    | none => rw [parseF_nokey fuel hps]; rfl
    | some key =>
      rw [parseF_key fuel hps]
      have hr : r.length < cs.length := parseString_some_length hps
      cases hv : parseValueF lossy fuel r with
      | none =>
        have := (parseVT_isSome fuel).1 lossy r (by omega)
        rw [hv] at this
        simp at this
      | some rv =>
        cases rv with
        | error e => rfl
        | ok pv =>
          obtain ⟨v?, r2⟩ := pv
          cases v? with
          | some v => rfl
          | none => rfl

theorem parseF_mono {lossy : Bool} {fuel fuel' : Nat} {cs : List Char} {r : Except String VdfValue}
    (hle : fuel ≤ fuel') (h : parseF lossy fuel cs = some r) : parseF lossy fuel' cs = some r := by
  cases hps : parseString cs lossy with
  | error e => rw [parseF_error fuel hps] at h; rw [parseF_error fuel' hps]; exact h
  | ok p =>
    obtain ⟨s?, r0⟩ := p
    cases s? with
    | none => rw [parseF_nokey fuel hps] at h; rw [parseF_nokey fuel' hps]; exact h
    | some key =>
      rw [parseF_key fuel hps] at h
      rw [parseF_key fuel' hps]
      cases hv : parseValueF lossy fuel r0 with
      | none => rw [hv] at h; simp at h
      | some rv =>
        rw [(parseVT_mono fuel).1 fuel' lossy r0 rv hle hv]
        rw [hv] at h
        exact h

theorem parse_eq {input : String} {lossy : Bool} {r : Except String VdfValue}
    (h : parseF lossy (input.data.length + 1) input.data = some r) : parse input lossy = r := by
  rw [parse, h]
  rfl

/-! Order facts for the BTreeMap key order. -/

theorem charListLt_irrefl (l : List Char) : charListLt l l = false := by
  induction l with
  | nil => rfl
  | cons c cs ih => simp [charListLt, ih]

theorem charListLt_asymm : ∀ (a b : List Char), charListLt a b = true → charListLt b a = false := by
  intro a
  induction a with
  | nil =>
    intro b h
    cases b with
    | nil => simp [charListLt] at h
    | cons d ds => simp [charListLt]
  | cons c cs ih =>
    intro b h
    cases b with
    | nil => simp [charListLt] at h
    | cons d ds =>
      simp only [charListLt] at h ⊢
      by_cases h1 : c.toNat < d.toNat
      · simp [show ¬ d.toNat < c.toNat by omega, h1]
      · by_cases h2 : d.toNat < c.toNat
        · simp [h1, h2] at h
        · simp only [if_neg h1, if_neg h2] at h ⊢
          exact ih ds h

theorem charListLt_trans :
    ∀ (a b c : List Char), charListLt a b = true → charListLt b c = true →
      charListLt a c = true := by
  intro a
  induction a with
  | nil =>
    intro b c hab hbc
    cases b with
    | nil => simp [charListLt] at hab
    | cons y ys =>
      cases c with
      | nil => simp [charListLt] at hbc
      | cons z zs => simp [charListLt]
  | cons x xs ih =>
    intro b c hab hbc
    cases b with
    | nil => simp [charListLt] at hab
    | cons y ys =>
      cases c with
      | nil => simp [charListLt] at hbc
      | cons z zs =>
        simp only [charListLt] at hab hbc ⊢
        by_cases h1 : x.toNat < y.toNat
        · by_cases h2 : y.toNat < z.toNat
          · simp [show x.toNat < z.toNat by omega]
          · by_cases h3 : z.toNat < y.toNat
            · simp [h2, h3] at hbc
            · simp [show x.toNat < z.toNat by omega]
        · by_cases h4 : y.toNat < x.toNat
          · simp [h1, h4] at hab
          · by_cases h2 : y.toNat < z.toNat
            · simp [show x.toNat < z.toNat by omega]
            · by_cases h5 : z.toNat < y.toNat
              · simp [h2, h5] at hbc
              · simp only [if_neg (show ¬ x.toNat < z.toNat by omega),
                  if_neg (show ¬ z.toNat < x.toNat by omega)]
                exact ih ys zs (by simpa [h1, h4] using hab) (by simpa [h2, h5] using hbc)

theorem strLt_asymm {a b : String} (h : strLt a b = true) : strLt b a = false :=
  charListLt_asymm a.data b.data h

theorem strLt_trans {a b c : String} (h1 : strLt a b = true) (h2 : strLt b c = true) :
    strLt a c = true :=
  charListLt_trans a.data b.data c.data h1 h2

theorem strLt_ne {a b : String} (h : strLt a b = true) : a ≠ b := by
  intro e
  subst e
  rw [strLt, charListLt_irrefl] at h
  cases h

/-! Insertion into a sorted association list. -/

theorem btInsert_append {k : String} {v : VdfValue} :
    ∀ tbl : List (String × VdfValue), (∀ p ∈ tbl, strLt p.1 k = true) →
      btInsert k v tbl = tbl ++ [(k, v)] := by
  intro tbl
  induction tbl with
  | nil => intro; rfl
  | cons p rest ih =>
    obtain ⟨k', v'⟩ := p
    intro hall
    have h1 : strLt k' k = true := hall (k', v') (by simp)
    have h2 : strLt k k' = false := strLt_asymm h1
    have h3 : k ≠ k' := (strLt_ne h1).symm
    simp only [btInsert, h2, if_neg h3]
    simp only [Bool.false_eq_true, if_false]
    rw [ih fun p hp => hall p (by simp [hp])]
    simp

theorem sortedKeys_tail {p : String × VdfValue} {es : List (String × VdfValue)}
    (h : sortedKeys (p :: es) = true) : sortedKeys es = true := by
  cases es with
  | nil => rfl
  | cons q es' =>
    obtain ⟨k, v⟩ := p
    obtain ⟨k', v'⟩ := q
    simp only [sortedKeys, Bool.and_eq_true] at h
    exact h.2

theorem sortedKeys_head_lt :
    ∀ (es : List (String × VdfValue)) (k : String) (v : VdfValue),
      sortedKeys ((k, v) :: es) = true → ∀ q ∈ es, strLt k q.1 = true := by
  intro es
  induction es with
  | nil => intro k v _ q hq; simp at hq
  | cons p es' ih =>
    intro k v h q hq
    obtain ⟨k', v'⟩ := p
    simp only [sortedKeys, Bool.and_eq_true] at h
    rcases List.mem_cons.mp hq with hq | hq
    · rw [hq]
      exact h.1
    · exact strLt_trans h.1 (ih k' v' h.2 q hq)

theorem foldl_btInsert :
    ∀ (es tbl : List (String × VdfValue)), sortedKeys es = true →
      (∀ p ∈ tbl, ∀ q ∈ es, strLt p.1 q.1 = true) →
      List.foldl (fun t kv => btInsert kv.1 kv.2 t) tbl es = tbl ++ es := by
  intro es
  induction es with
  | nil => intro tbl _ _; simp
  | cons p es' ih =>
    intro tbl hsort hall
    obtain ⟨k, v⟩ := p
    rw [List.foldl_cons]
    have h1 : btInsert k v tbl = tbl ++ [(k, v)] :=
      btInsert_append tbl fun q hq => hall q hq (k, v) (by simp)
    rw [h1]
    rw [ih (tbl ++ [(k, v)]) (sortedKeys_tail hsort) ?_]
    · simp
    · intro q hq q' hq'
      rcases List.mem_append.mp hq with hq | hq
      · exact hall q hq q' (by simp [hq'])
      · simp at hq
        rw [hq]
        exact sortedKeys_head_lt es' k v hsort q' hq'

/-! Reading back rendered strings. -/

theorem String_mk_data (s : String) : String.mk s.data = s := rfl

theorem skipWhitespace_other {c : Char} (cs : List Char) (h1 : rustIsWhitespace c = false)
    (h2 : c ≠ '/') : skipWhitespace (c :: cs) = c :: cs :=
  skipAux_other cs h1 h2

theorem renderString_cons (s rest : List Char) :
    renderString s ++ rest = '"' :: (escapeChars s ++ '"' :: rest) := by
  simp [renderString]

theorem parseStringLoop_escape_append (lossy : Bool) :
    ∀ (s acc rest : List Char),
      parseStringLoop lossy (escapeChars s ++ '"' :: rest) acc false = .ok (⟨acc ++ s⟩, rest) := by
  intro s
  induction s with
  | nil =>
    intro acc rest
    simp only [escapeChars, List.nil_append]
    rw [parseStringLoop_close]
    simp
  | cons c s' ih =>
    intro acc rest
    by_cases hc : (c = '"' || c = '\\') = true
    · simp only [escapeChars, hc, if_true, List.cons_append]
      rw [parseStringLoop_escape, parseStringLoop_escaped, ih]
      simp
    · have hc1 : c ≠ '"' := by simp at hc; exact hc.1
      have hc2 : c ≠ '\\' := by simp at hc; exact hc.2
      simp only [escapeChars, hc1, hc2]
      simp only [decide_eq_true_eq, Bool.or_eq_true, hc1, hc2, or_self, if_false,
        List.cons_append]
      rw [parseStringLoop_other lossy c _ acc hc1 hc2, ih]
      simp

theorem parseStringLoop_escape_eoi (lossy : Bool) :
    ∀ (s acc : List Char),
      parseStringLoop lossy (escapeChars s) acc false =
        if lossy then .ok (⟨acc ++ s⟩, []) else
          .error "Unexpected end of input: unclosed string" := by
  intro s
  induction s with
  | nil =>
    intro acc
    simp only [escapeChars]
    rw [parseStringLoop_nil]
    simp
  | cons c s' ih =>
    intro acc
    by_cases hc : (c = '"' || c = '\\') = true
    · simp only [escapeChars, hc, if_true]
      rw [parseStringLoop_escape, parseStringLoop_escaped, ih]
      simp
    · have hc1 : c ≠ '"' := by simp at hc; exact hc.1
      have hc2 : c ≠ '\\' := by simp at hc; exact hc.2
      simp only [escapeChars, hc1, hc2]
      simp only [decide_eq_true_eq, Bool.or_eq_true, hc1, hc2, or_self, if_false]
      rw [parseStringLoop_other lossy c _ acc hc1 hc2, ih]
      simp

theorem parseString_render (lossy : Bool) (s rest : List Char) :
    parseString (renderString s ++ rest) lossy = .ok (some ⟨s⟩, rest) := by
  rw [renderString_cons]
  have hw : skipWhitespace ('"' :: (escapeChars s ++ '"' :: rest)) =
      '"' :: (escapeChars s ++ '"' :: rest) :=
    skipWhitespace_other _ ws_quote (by decide)
  rw [parseString_eq_quote lossy hw, parseStringLoop_escape_append]
  simp

theorem parseString_render_eoi (lossy : Bool) (s : List Char) :
    parseString ('"' :: escapeChars s) lossy =
      if lossy then .ok (some ⟨s⟩, []) else
        .error "Unexpected end of input: unclosed string" := by
  have hw : skipWhitespace ('"' :: escapeChars s) = '"' :: escapeChars s :=
    skipWhitespace_other _ ws_quote (by decide)
  rw [parseString_eq_quote lossy hw, parseStringLoop_escape_eoi]
  cases lossy <;> simp

/-! Round trip: parsing the canonical rendering of a tree returns the tree. -/

theorem renderVT_roundtrip (fuel : Nat) :
    (∀ (lossy : Bool) (v : VdfValue) (rest : List Char), canonical v = true →
        (render v ++ rest).length < fuel →
        parseValueF lossy fuel (render v ++ rest) = some (.ok (some v, rest))) ∧
    (∀ (lossy : Bool) (tbl es : List (String × VdfValue)) (rest : List Char),
        sortedKeys es = true → canonicalList es = true →
        (renderEntries es ++ '}' :: rest).length < fuel →
        parseTableLoopF lossy fuel tbl (renderEntries es ++ '}' :: rest) =
          some (.ok (.table (List.foldl (fun t kv => btInsert kv.1 kv.2 t) tbl es), rest))) := by
  induction fuel with
  | zero =>
    constructor
    · intro lossy v rest _ h; exact absurd h (Nat.not_lt_zero _)
    · intro lossy tbl es rest _ _ h; exact absurd h (Nat.not_lt_zero _)
  | succ fuel ih =>
    obtain ⟨ihv, iht⟩ := ih
    constructor
    · intro lossy v rest hcan hlen
      cases v with
      | value s =>
        have he : render (.value s) ++ rest = '"' :: (escapeChars s.data ++ '"' :: rest) := by
          simp [render, renderString]
        rw [he] at hlen ⊢
        have hw : skipWhitespace ('"' :: (escapeChars s.data ++ '"' :: rest)) =
            '"' :: (escapeChars s.data ++ '"' :: rest) :=
          skipWhitespace_other _ ws_quote (by decide)
        have hps : parseString ('"' :: (escapeChars s.data ++ '"' :: rest)) lossy =
            .ok (some s, rest) := by
          rw [← renderString_cons, parseString_render, String_mk_data]
        rw [parseValueF_quote_ok fuel hw hps]
        rfl
      | table es =>
        have hcan' : sortedKeys es = true ∧ canonicalList es = true := by
          simpa [canonical, Bool.and_eq_true] using hcan
        have he : render (.table es) ++ rest = '{' :: (renderEntries es ++ '}' :: rest) := by
          simp [render]
        rw [he] at hlen ⊢
        have hw : skipWhitespace ('{' :: (renderEntries es ++ '}' :: rest)) =
            '{' :: (renderEntries es ++ '}' :: rest) :=
          skipWhitespace_other _ ws_lcurl (by decide)
        rw [parseValueF_succ_table lossy fuel hw]
        have hlen' : (renderEntries es ++ '}' :: rest).length < fuel := by
          simp only [List.length_cons] at hlen
          omega
        rw [iht lossy [] es rest hcan'.1 hcan'.2 hlen']
        rw [foldl_btInsert es [] hcan'.1 (by intro p hp; simp at hp)]
        simp [Except.map]
    · intro lossy tbl es rest hsort hcanl hlen
      cases es with
      | nil =>
        have he : renderEntries ([] : List (String × VdfValue)) ++ '}' :: rest = '}' :: rest := by
          simp [renderEntries]
        rw [he]
        have hw : skipWhitespace ('}' :: rest) = '}' :: rest :=
          skipWhitespace_other _ ws_rcurl (by decide)
        rw [parseTableLoopF_succ_close lossy fuel tbl hw]
        simp
      | cons p es' =>
        obtain ⟨k, v⟩ := p
        have hcan1 : canonical v = true ∧ canonicalList es' = true := by
          simpa [canonicalList, Bool.and_eq_true] using hcanl
        have he : renderEntries ((k, v) :: es') ++ '}' :: rest =
            '"' :: (escapeChars k.data ++ '"' :: (render v ++ (renderEntries es' ++ '}' :: rest))) := by
          simp [renderEntries, renderString]
        rw [he] at hlen ⊢
        have hw : skipWhitespace
            ('"' :: (escapeChars k.data ++ '"' :: (render v ++ (renderEntries es' ++ '}' :: rest)))) =
            '"' :: (escapeChars k.data ++ '"' :: (render v ++ (renderEntries es' ++ '}' :: rest))) :=
          skipWhitespace_other _ ws_quote (by decide)
        have hne :
            ('"' :: (escapeChars k.data ++ '"' ::
              (render v ++ (renderEntries es' ++ '}' :: rest)))).head? ≠ some '}' := by
          simp
        have hps : parseString
            ('"' :: (escapeChars k.data ++ '"' :: (render v ++ (renderEntries es' ++ '}' :: rest))))
            lossy = .ok (some k, render v ++ (renderEntries es' ++ '}' :: rest)) := by
          rw [← renderString_cons, parseString_render, String_mk_data]
        rw [parseTableLoopF_go_key fuel tbl hw hne hps]
        have hlenv : (render v ++ (renderEntries es' ++ '}' :: rest)).length < fuel := by
          simp only [List.length_cons, List.length_append] at hlen ⊢
          omega
        rw [ihv lossy v _ hcan1.1 hlenv]
        show parseTableLoopF lossy fuel (btInsert k v tbl) (renderEntries es' ++ '}' :: rest) = _
        have hlent : (renderEntries es' ++ '}' :: rest).length < fuel := by
          simp only [List.length_cons, List.length_append] at hlenv ⊢
          omega
        rw [iht lossy (btInsert k v tbl) es' rest (sortedKeys_tail hsort) hcan1.2 hlent]
        rfl

/-! Unfolding equations for the comment stripper. -/

theorem ws_nl : rustIsWhitespace '\n' = true := by with_unfolding_all rfl

theorem ws_cr : rustIsWhitespace '\r' = true := by with_unfolding_all rfl

theorem stripCM_nil (m : SMode) : stripCM m [] = [] := by
  cases m with
  | out => rfl
  | com => rfl
  | str b => cases b <;> rfl

theorem stripCM_out_comment (cs : List Char) :
    stripCM .out ('/' :: '/' :: cs) = stripCM .com cs := rfl

theorem stripCM_out_quote (cs : List Char) :
    stripCM .out ('"' :: cs) = '"' :: stripCM (.str false) cs := rfl

theorem stripCM_out_slash {cs : List Char} (h : ∀ r, cs ≠ '/' :: r) :
    stripCM .out ('/' :: cs) = '/' :: stripCM .out cs := by
  cases cs with
  | nil => rfl
  | cons d t =>
    have hd : d ≠ '/' := fun e => h t (by rw [e])
    rw [stripCM.eq_def]
    simp [hd]

theorem stripCM_out_other {c : Char} (cs : List Char) (h1 : c ≠ '/') (h2 : c ≠ '"') :
    stripCM .out (c :: cs) = c :: stripCM .out cs := by
  rw [stripCM.eq_def]
  simp [h1, h2]

theorem stripCM_com_nl {c : Char} (cs : List Char) (h : c = '\n' ∨ c = '\r') :
    stripCM .com (c :: cs) = c :: stripCM .out cs := by
  rw [stripCM.eq_def]
  rcases h with h | h <;> simp [h]

theorem stripCM_com_other {c : Char} (cs : List Char) (h1 : c ≠ '\n') (h2 : c ≠ '\r') :
    stripCM .com (c :: cs) = stripCM .com cs := by
  rw [stripCM.eq_def]
  simp [h1, h2]

theorem stripCM_str_escaped (c : Char) (cs : List Char) :
    stripCM (.str true) (c :: cs) = c :: stripCM (.str false) cs := rfl

theorem stripCM_str_quote (cs : List Char) :
    stripCM (.str false) ('"' :: cs) = '"' :: stripCM .out cs := rfl

theorem stripCM_str_backslash (cs : List Char) :
    stripCM (.str false) ('\\' :: cs) = '\\' :: stripCM (.str true) cs := rfl

theorem stripCM_str_other {c : Char} (cs : List Char) (h1 : c ≠ '"') (h2 : c ≠ '\\') :
    stripCM (.str false) (c :: cs) = c :: stripCM (.str false) cs := by
  rw [stripCM.eq_def]
  simp [h1, h2]

theorem strip_length (m : SMode) (cs : List Char) : (stripCM m cs).length ≤ cs.length := by
  induction m, cs using stripCM.induct <;> rw [stripCM.eq_def] <;> simp_all <;> omega

/-- The stripper does not change the head character of input that does not
begin with a comment. -/
theorem strip_out_head {cs : List Char} (h : ∀ r, cs ≠ '/' :: '/' :: r) :
    (stripCM .out cs).head? = cs.head? := by
  cases cs with
  | nil => rfl
  | cons c cs' =>
    by_cases hc1 : c = '/'
    · subst hc1
      cases cs' with
      | nil => rfl
      | cons d cs'' =>
        have hd : d ≠ '/' := fun e => h cs'' (by rw [e])
        rw [stripCM_out_slash fun r he => hd (List.cons.inj he).1]
        simp
    · by_cases hc2 : c = '"'
      · subst hc2
        rw [stripCM_out_quote]
        simp
      · rw [stripCM_out_other cs' hc1 hc2]
        simp

/-- Skipping whitespace commutes with comment stripping: on stripped input
the skipper reaches the position whose strip is the skipper's position on
the original input.  The second conjunct handles a cursor inside a comment. -/
theorem strip_skip_comm :
    ∀ (n : Nat) (cs : List Char), cs.length ≤ n →
      (skipWhitespaceAux false (stripCM .out cs) = stripCM .out (skipWhitespaceAux false cs) ∧
       skipWhitespaceAux false (stripCM .com cs) = stripCM .out (skipWhitespaceAux true cs)) := by
  intro n
  induction n with
  | zero =>
    intro cs h
    have : cs = [] := List.length_eq_zero.mp (Nat.le_zero.mp h)
    subst this
    constructor <;> simp [stripCM_nil, skipAux_nil]
  | succ n ih =>
    intro cs hlen
    constructor
    · cases cs with
      | nil => simp [stripCM_nil, skipAux_nil]
      | cons c cs' =>
        have hlen' : cs'.length ≤ n := by simp at hlen; omega
        by_cases hws : rustIsWhitespace c = true
        · have hc1 : c ≠ '/' := fun e => by rw [e, ws_slash] at hws; cases hws
          have hc2 : c ≠ '"' := fun e => by rw [e, ws_quote] at hws; cases hws
          rw [stripCM_out_other cs' hc1 hc2, skipAux_ws _ hws, skipAux_ws _ hws]
          exact (ih cs' hlen').1
        · have hwsf : rustIsWhitespace c = false := by simpa using hws
          by_cases hc1 : c = '/'
          · subst hc1
            cases cs' with
            | nil => simp [skipAux_slash_nil, show stripCM .out ['/'] = ['/'] from rfl]
            | cons d cs'' =>
              by_cases hd : d = '/'
              · subst hd
                rw [stripCM_out_comment, skipAux_comment]
                have hlen'' : cs''.length ≤ n := by simp at hlen; omega
                exact (ih cs'' hlen'').2
              · have hno : ∀ r, (d :: cs'') ≠ '/' :: r := fun r he => hd (List.cons.inj he).1
                rw [stripCM_out_slash hno]
                have hhead : (stripCM .out (d :: cs'')).head? = some d := by
                  rw [strip_out_head fun r he => hd (List.cons.inj he).1]
                  rfl
                cases hsp : stripCM .out (d :: cs'') with
                | nil => rw [hsp] at hhead; simp at hhead
                | cons d' t' =>
                  rw [hsp] at hhead
                  simp at hhead
                  rw [skipAux_slash t' (by rw [hhead]; exact hd)]
                  rw [skipAux_slash cs'' hd]
                  rw [stripCM_out_slash hno, hsp]
          · by_cases hc2 : c = '"'
            · subst hc2
              rw [stripCM_out_quote,
                skipAux_other _ ws_quote (by decide),
                skipAux_other _ ws_quote (by decide),
                stripCM_out_quote]
            · rw [stripCM_out_other cs' hc1 hc2,
                skipAux_other _ hwsf hc1,
                skipAux_other _ hwsf hc1,
                stripCM_out_other cs' hc1 hc2]
    · cases cs with
      | nil => simp [stripCM_nil, skipAux_nil]
      | cons c cs' =>
        have hlen' : cs'.length ≤ n := by simp at hlen; omega
        by_cases hnl : c = '\n' ∨ c = '\r'
        · rw [stripCM_com_nl cs' hnl, skipAux_com_nl cs' hnl]
          have hws : rustIsWhitespace c = true := by
            rcases hnl with h | h <;> rw [h]
            · exact ws_nl
            · exact ws_cr
          rw [skipAux_ws _ hws]
          exact (ih cs' hlen').1
        · push_neg at hnl
          rw [stripCM_com_other cs' hnl.1 hnl.2, skipAux_com_other cs' hnl.1 hnl.2]
          exact (ih cs' hlen').2

theorem strip_skip {cs : List Char} :
    skipWhitespace (stripCM .out cs) = stripCM .out (skipWhitespace cs) :=
  (strip_skip_comm cs.length cs le_rfl).1

/-- Inside a quoted string the stripper changes nothing, so the lexer loop
reads the same literal and leaves a cursor whose strip matches. -/
theorem strip_parseStringLoop (lossy : Bool) :
    ∀ (cs acc : List Char) (esc : Bool),
      parseStringLoop lossy (stripCM (.str esc) cs) acc esc =
        Except.map (fun p => (p.1, stripCM .out p.2)) (parseStringLoop lossy cs acc esc) := by
  intro cs
  induction cs with
  | nil =>
    intro acc esc
    rw [stripCM_nil, parseStringLoop_nil]
    cases lossy <;> simp [Except.map, stripCM_nil]
  | cons c cs' ih =>
    intro acc esc
    cases esc with
    | true =>
      rw [stripCM_str_escaped, parseStringLoop_escaped, parseStringLoop_escaped]
      exact ih (acc ++ [c]) false
    | false =>
      by_cases hc1 : c = '"'
      · subst hc1
        rw [stripCM_str_quote, parseStringLoop_close, parseStringLoop_close]
        simp [Except.map]
      · by_cases hc2 : c = '\\'
        · subst hc2
          rw [stripCM_str_backslash, parseStringLoop_escape, parseStringLoop_escape]
          exact ih acc true
        · rw [stripCM_str_other cs' hc1 hc2,
            parseStringLoop_other lossy c _ acc hc1 hc2,
            parseStringLoop_other lossy c _ acc hc1 hc2]
          exact ih (acc ++ [c]) false

/-- The string lexer on stripped input: same token, stripped rest. -/
theorem strip_parseString (cs : List Char) (lossy : Bool) :
    parseString (stripCM .out cs) lossy =
      Except.map (fun p => (p.1, stripCM .out p.2)) (parseString cs lossy) := by
  cases hw : skipWhitespace cs with
  | nil =>
    rw [parseString_eq_nil lossy hw]
    have hw' : skipWhitespace (stripCM .out cs) = [] := by
      rw [strip_skip, hw, stripCM_nil]
    rw [parseString_eq_nil lossy hw']
    simp [Except.map, stripCM_nil]
  | cons c t =>
    have hw' : skipWhitespace (stripCM .out cs) = stripCM .out (c :: t) := by
      rw [strip_skip, hw]
    have hnc : ∀ r, (c :: t) ≠ '/' :: '/' :: r := by
      intro r he
      exact skipWhitespace_no_comment cs r (hw.trans he)
    by_cases hc : c = '"'
    · subst hc
      rw [stripCM_out_quote] at hw'
      rw [parseString_eq_quote lossy hw, parseString_eq_quote lossy hw']
      rw [strip_parseStringLoop lossy t [] false]
      cases hl : parseStringLoop lossy t [] false with
      | error e => simp [Except.map]
      | ok p =>
        obtain ⟨s, r⟩ := p
        simp [Except.map]
    · have hX : ∃ X, stripCM .out (c :: t) = c :: X := by
        by_cases hcs : c = '/'
        · subst hcs
          exact ⟨stripCM .out t, stripCM_out_slash fun r he => hnc r (by rw [he])⟩
        · exact ⟨stripCM .out t, stripCM_out_other t hcs hc⟩
      obtain ⟨X, hXe⟩ := hX
      rw [hXe] at hw'
      rw [parseString_eq_other lossy hw hc, parseString_eq_other lossy hw' hc]
      simp [Except.map, ← hXe]

/-- Simulation: parsing stripped input step-aligns with parsing the
original, producing the same value (or the same error) and a cursor whose
strip corresponds. -/
theorem strip_parseVT (fuel : Nat) :
    (∀ (lossy : Bool) (cs : List Char),
        parseValueF lossy fuel (stripCM .out cs) =
          Option.map (Except.map (fun p => (p.1, stripCM .out p.2)))
            (parseValueF lossy fuel cs)) ∧
    (∀ (lossy : Bool) (tbl : List (String × VdfValue)) (cs : List Char),
        parseTableLoopF lossy fuel tbl (stripCM .out cs) =
          Option.map (Except.map (fun p => (p.1, stripCM .out p.2)))
            (parseTableLoopF lossy fuel tbl cs)) := by
  induction fuel with
  | zero =>
    constructor
    · intro lossy cs; rw [parseValueF_zero, parseValueF_zero]; rfl
    · intro lossy tbl cs; rw [parseTableLoopF_zero, parseTableLoopF_zero]; rfl
  | succ fuel ih =>
    obtain ⟨ihv, iht⟩ := ih
    constructor
    · intro lossy cs
      cases hw : skipWhitespace cs with
      | nil =>
        have hw' : skipWhitespace (stripCM .out cs) = [] := by
          rw [strip_skip, hw, stripCM_nil]
        rw [parseValueF_succ_other lossy fuel hw (by simp) (by simp),
          parseValueF_succ_other lossy fuel hw' (by simp) (by simp)]
        simp [Except.map, stripCM_nil]
      | cons c t =>
        have hw0 : skipWhitespace (stripCM .out cs) = stripCM .out (c :: t) := by
          rw [strip_skip, hw]
        have hnc : ∀ r, (c :: t) ≠ '/' :: '/' :: r := by
          intro r he
          exact skipWhitespace_no_comment cs r (hw.trans he)
        by_cases hc1 : c = '{'
        · subst hc1
          have hst : stripCM .out ('{' :: t) = '{' :: stripCM .out t :=
            stripCM_out_other t (by decide) (by decide)
          rw [hst] at hw0
          rw [parseValueF_succ_table lossy fuel hw, parseValueF_succ_table lossy fuel hw0]
          rw [iht lossy [] t]
          cases parseTableLoopF lossy fuel [] t with
          | none => rfl
          | some r =>
            cases r with
            | error e => rfl
            | ok p => simp [Except.map]
        · by_cases hc2 : c = '"'
          · subst hc2
            have hst : stripCM .out ('"' :: t) = '"' :: stripCM (.str false) t :=
              stripCM_out_quote t
            rw [hst] at hw0
            cases hps : parseString cs lossy with
            | error e =>
              have hps' : parseString (stripCM .out cs) lossy = .error e := by
                rw [strip_parseString, hps]
                rfl
              rw [parseValueF_quote_error fuel hw hps,
                parseValueF_quote_error fuel hw0 hps']
              rfl
            | ok p =>
              obtain ⟨s?, r⟩ := p
              have hps' : parseString (stripCM .out cs) lossy =
                  .ok (s?, stripCM .out r) := by
                rw [strip_parseString, hps]
                rfl
              rw [parseValueF_quote_ok fuel hw hps, parseValueF_quote_ok fuel hw0 hps']
              rfl
          · have hhead : (stripCM .out (c :: t)).head? = some c := by
              rw [strip_out_head hnc]
              rfl
            rw [parseValueF_succ_other lossy fuel hw (by simp [hc1]) (by simp [hc2]),
              parseValueF_succ_other lossy fuel hw0
                (by rw [hhead]; simp [hc1]) (by rw [hhead]; simp [hc2])]
            rfl
    · intro lossy tbl cs
      by_cases hclose : ∃ r0, skipWhitespace cs = '}' :: r0
      · obtain ⟨r0, hw⟩ := hclose
        have hst : stripCM .out ('}' :: r0) = '}' :: stripCM .out r0 :=
          stripCM_out_other r0 (by decide) (by decide)
        have hw0 : skipWhitespace (stripCM .out cs) = '}' :: stripCM .out r0 := by
          rw [strip_skip, hw, hst]
        rw [parseTableLoopF_succ_close lossy fuel tbl hw,
          parseTableLoopF_succ_close lossy fuel tbl hw0]
        rfl
      · have hne : (skipWhitespace cs).head? ≠ some '}' :=
          head_ne_of_no_cons (by push_neg at hclose; exact hclose)
        have hw0 : skipWhitespace (stripCM .out cs) = stripCM .out (skipWhitespace cs) :=
          strip_skip
        have hne' : (stripCM .out (skipWhitespace cs)).head? ≠ some '}' := by
          rw [strip_out_head (skipWhitespace_no_comment cs)]
          exact hne
        cases hps : parseString (skipWhitespace cs) lossy with
        | error e =>
          have hps' : parseString (stripCM .out (skipWhitespace cs)) lossy = .error e := by
            rw [strip_parseString, hps]
            rfl
          rw [parseTableLoopF_go_error fuel tbl rfl hne hps,
            parseTableLoopF_go_error fuel tbl hw0 hne' hps']
          rfl
        | ok p =>
          obtain ⟨s?, r⟩ := p
          have hps' : parseString (stripCM .out (skipWhitespace cs)) lossy =
              .ok (s?, stripCM .out r) := by
            rw [strip_parseString, hps]
            rfl
          cases s? with
          | some key =>
            rw [parseTableLoopF_go_key fuel tbl rfl hne hps,
              parseTableLoopF_go_key fuel tbl hw0 hne' hps']
            rw [ihv lossy r]
            cases hv : parseValueF lossy fuel r with
            | none => rfl
            | some rv =>
              cases rv with
              | error e => rfl
              | ok pv =>
                obtain ⟨v?, r2⟩ := pv
                cases v? with
                | some v =>
                  show parseTableLoopF lossy fuel (btInsert key v tbl) (stripCM .out r2) = _
                  rw [iht lossy (btInsert key v tbl) r2]
                | none => rfl
          | none =>
            rw [parseTableLoopF_go_nokey_error fuel tbl rfl hne hps,
              parseTableLoopF_go_nokey_error fuel tbl hw0 hne' hps']
            rfl

/-- Comment stripping does not change the outcome of the fueled entry
body. -/
theorem strip_parseF (lossy : Bool) (fuel : Nat) (cs : List Char) :
    parseF lossy fuel (stripCM .out cs) = parseF lossy fuel cs := by
  cases hps : parseString cs lossy with
  | error e =>
    have hps' : parseString (stripCM .out cs) lossy = .error e := by
      rw [strip_parseString, hps]
      rfl
    rw [parseF_error fuel hps, parseF_error fuel hps']
  | ok p =>
    obtain ⟨s?, r⟩ := p
    have hps' : parseString (stripCM .out cs) lossy = .ok (s?, stripCM .out r) := by
      rw [strip_parseString, hps]
      rfl
    cases s? with
    | none => rw [parseF_nokey fuel hps, parseF_nokey fuel hps']
    | some key =>
      rw [parseF_key fuel hps, parseF_key fuel hps']
      rw [(strip_parseVT fuel).1 lossy r]
      cases hv : parseValueF lossy fuel r with
      | none => rfl
      | some rv =>
        cases rv with
        | error e => rfl
        | ok pv =>
          obtain ⟨v?, r2⟩ := pv
          cases v? with
          | some v => rfl
          | none => rfl

/-- Comment stripping does not change the parse result. -/
theorem parse_strip (s : String) (lossy : Bool) :
    parse (String.mk (stripCM .out s.data)) lossy = parse s lossy := by
  have hlt : (stripCM .out s.data).length < (stripCM .out s.data).length + 1 := Nat.lt_succ_self _
  have hsome := parseF_isSome lossy ((stripCM .out s.data).length + 1) (stripCM .out s.data) hlt
  obtain ⟨r, hr⟩ := Option.isSome_iff_exists.mp hsome
  have hle : (stripCM .out s.data).length + 1 ≤ s.data.length + 1 := by
    have := strip_length .out s.data
    omega
  have h2 : parseF lossy (s.data.length + 1) (stripCM .out s.data) = some r :=
    parseF_mono hle hr
  have h3 : parseF lossy (s.data.length + 1) s.data = some r := by
    rw [← strip_parseF]
    exact h2
  have e1 : parse (String.mk (stripCM .out s.data)) lossy = r := parse_eq hr
  have e2 : parse s lossy = r := parse_eq h3
  rw [e1, e2]

theorem String_data_mk (l : List Char) : (String.mk l).data = l := rfl

theorem skip_renderString (s rest : List Char) :
    skipWhitespace (renderString s ++ rest) = '"' :: (escapeChars s ++ '"' :: rest) := by
  rw [renderString_cons]
  exact skipWhitespace_other _ ws_quote (by decide)

/-! Claims. -/

/-- Claim C1, counterexample: on empty input (where the String Lexer finds
no key) `parse` does not succeed with an empty root table; it fails with
the missing-root-key error. -/
theorem c1_counterexample :
    parse "" true = .error "Unexpected end of input: missing root key" ∧
      ¬ parse "" true = .ok (.table []) := by
  have h : parse "" true = .error "Unexpected end of input: missing root key" := by
    with_unfolding_all rfl
  refine ⟨h, ?_⟩
  rw [h]
  simp

/-- Claim C1, amended: whenever the String Lexer finds no key at the top
level, `parse` fails with the missing-root-key error (it never returns an
empty root table). -/
theorem c1_amended (s : String) (lossy : Bool) (rest : List Char)
    (h : parseString s.data lossy = .ok (none, rest)) :
    parse s lossy = .error "Unexpected end of input: missing root key" :=
  parse_eq (parseF_nokey _ h)

/-- Claim C1, witness for the amended theorem at the empty input. -/
theorem c1_amended_witness :
    parseString "".data true = .ok (none, []) ∧
      parse "" true = .error "Unexpected end of input: missing root key" :=
  ⟨by with_unfolding_all rfl, c1_amended "" true [] (by with_unfolding_all rfl)⟩

/-- Claim C2, counterexample: a flat sequence of two pairs does not parse
to the two-pair table; only the first pair is kept. -/
theorem c2_counterexample :
    parse "\"a\" \"1\" \"b\" \"2\"" false = .ok (.table [("a", .value "1")]) ∧
      ¬ parse "\"a\" \"1\" \"b\" \"2\"" false =
          .ok (.table [("a", .value "1"), ("b", .value "2")]) := by
  have h : parse "\"a\" \"1\" \"b\" \"2\"" false = .ok (.table [("a", .value "1")]) := by
    with_unfolding_all rfl
  refine ⟨h, ?_⟩
  rw [h]
  simp

/-- Claim C2, amended: `parse` reads exactly one key/value pair and
returns the root table containing only that pair; any input after the
first pair's value, well formed or not, is ignored. -/
theorem c2_amended (k v : String) (rest : List Char) (lossy : Bool) :
    parse (String.mk (renderString k.data ++ (renderString v.data ++ rest))) lossy =
      .ok (.table [(k, .value v)]) := by
  apply parse_eq
  have hps : parseString
      (String.mk (renderString k.data ++ (renderString v.data ++ rest))).data lossy =
      .ok (some k, renderString v.data ++ rest) := by
    rw [String_data_mk]
    have h0 := parseString_render lossy k.data (renderString v.data ++ rest)
    rw [String_mk_data] at h0
    exact h0
  rw [parseF_key _ hps]
  have hps2 : parseString (renderString v.data ++ rest) lossy = .ok (some v, rest) := by
    rw [parseString_render, String_mk_data]
  rw [parseValueF_quote_ok _ (skip_renderString v.data rest) hps2]
  rfl

/-- Claim C3: a final quoted string that reaches end of input with no
closing quote (after a complete key) succeeds in lossy mode with the
partial literal, and fails with the unclosed-string error otherwise; in
particular for the input `"K" "V`. -/
theorem c3_unclosed_final_string :
    (∀ (k v : String) (lossy : Bool),
        parse (String.mk (renderString k.data ++ '"' :: escapeChars v.data)) lossy =
          if lossy then .ok (.table [(k, .value v)])
          else .error "Unexpected end of input: unclosed string") ∧
    parse "\"K\" \"V" true = .ok (.table [("K", .value "V")]) ∧
    parse "\"K\" \"V" false = .error "Unexpected end of input: unclosed string" := by
  refine ⟨?_, by with_unfolding_all rfl, by with_unfolding_all rfl⟩
  intro k v lossy
  have hps : parseString
      (String.mk (renderString k.data ++ '"' :: escapeChars v.data)).data lossy =
      .ok (some k, '"' :: escapeChars v.data) := by
    rw [String_data_mk]
    have h0 := parseString_render lossy k.data ('"' :: escapeChars v.data)
    rw [String_mk_data] at h0
    exact h0
  have hw : skipWhitespace ('"' :: escapeChars v.data) = '"' :: escapeChars v.data :=
    skipWhitespace_other _ ws_quote (by decide)
  cases lossy with
  | false =>
    apply parse_eq
    rw [parseF_key _ hps]
    have hps2 : parseString ('"' :: escapeChars v.data) false =
        .error "Unexpected end of input: unclosed string" := by
      rw [parseString_render_eoi]
      simp
    rw [parseValueF_quote_error _ hw hps2]
    rfl
  | true =>
    apply parse_eq
    rw [parseF_key _ hps]
    have hps2 : parseString ('"' :: escapeChars v.data) true = .ok (some v, []) := by
      rw [parseString_render_eoi]
      simp [String_mk_data]
    rw [parseValueF_quote_ok _ hw hps2]
    rfl

/-- Claim C4: inside a quoted string, backslash followed by any character
X contributes exactly the literal X (the backslash is dropped, no escape
is interpreted), so an escaped quote is appended instead of closing the
string, and the first unescaped quote closes the string; concretely,
`"K" "V\"Q"` parses to the scalar `V"Q`. -/
theorem c4_escape_literal :
    (∀ (x : Char) (cs acc : List Char) (lossy : Bool),
        parseStringLoop lossy ('\\' :: x :: cs) acc false =
          parseStringLoop lossy cs (acc ++ [x]) false) ∧
    (∀ (cs acc : List Char) (lossy : Bool),
        parseStringLoop lossy ('"' :: cs) acc false = .ok (⟨acc⟩, cs)) ∧
    parse "\"K\" \"V\\\"Q\"" false = .ok (.table [("K", .value "V\"Q")]) := by
  refine ⟨?_, ?_, by with_unfolding_all rfl⟩
  · intro x cs acc lossy
    rw [parseStringLoop_escape, parseStringLoop_escaped]
  · intro cs acc lossy
    rw [parseStringLoop_close]

theorem parseString_some_quote {cs : List Char} {lossy : Bool} {s : String}
    {rest : List Char} (h : parseString cs lossy = .ok (some s, rest)) :
    ∃ r, skipWhitespace cs = '"' :: r := by
  cases hw : skipWhitespace cs with
  | nil => rw [parseString_eq_nil lossy hw] at h; simp at h
  | cons c t =>
    by_cases hc : c = '"'
    · exact ⟨t, by rw [hc]⟩
    · rw [parseString_eq_other lossy hw hc] at h; simp at h

/-- Claim C5: whenever a key has been lexed but the next significant
character is neither `'"'` nor `'{'` (including end of input), the parse
fails with a missing-value error, in both lossy modes.  At the top level
(first conjunct) the error is the missing-value-for-root-key one; for a
key lexed inside a brace-delimited table (second conjunct, for any table
state, fuel and cursor) the table loop fails with the missing-value
error; the concrete conjuncts run the table case end to end on the input
`"K" \x7b "A" \x7d` in both lossy modes. -/
theorem c5_missing_value :
    (∀ (s : String) (lossy : Bool) (key : String) (rest : List Char),
        parseString s.data lossy = .ok (some key, rest) →
        (skipWhitespace rest).head? ≠ some '"' →
        (skipWhitespace rest).head? ≠ some '{' →
        parse s lossy = .error "Unexpected end of input: missing value for root key") ∧
    (∀ (lossy : Bool) (fuel : Nat) (tbl : List (String × VdfValue)) (cs : List Char)
        (key : String) (rest1 : List Char),
        parseString (skipWhitespace cs) lossy = .ok (some key, rest1) →
        (skipWhitespace rest1).head? ≠ some '"' →
        (skipWhitespace rest1).head? ≠ some '{' →
        parseTableLoopF lossy (fuel+2) tbl cs =
          some (.error "Unexpected end of input: missing value")) ∧
    parse "\"K\" \x7b \"A\" \x7d" false = .error "Unexpected end of input: missing value" ∧
    parse "\"K\" \x7b \"A\" \x7d" true = .error "Unexpected end of input: missing value" := by
  refine ⟨?_, ?_, by with_unfolding_all rfl, by with_unfolding_all rfl⟩
  · intro s lossy key rest h h1 h2
    apply parse_eq
    rw [parseF_key _ h]
    rw [parseValueF_succ_other lossy _ rfl h2 h1]
  · intro lossy fuel tbl cs key rest1 hps h1 h2
    obtain ⟨r, hr⟩ := parseString_some_quote hps
    rw [skipWhitespace_idem] at hr
    have hne : (skipWhitespace cs).head? ≠ some '}' := by
      rw [hr]
      simp
    show parseTableLoopF lossy ((fuel+1)+1) tbl cs = _
    rw [parseTableLoopF_go_key (fuel+1) tbl rfl hne hps]
    rw [parseValueF_succ_other lossy fuel rfl h2 h1]

/-- Claim C5, witness: the top-level part at the bare-key input `"K"` and
the in-table part at the table remainder `"A" \x7d` (key `A` lexed, a
closing brace instead of a value). -/
theorem c5_witness :
    parseString "\"K\"".data false = .ok (some "K", []) ∧
      (skipWhitespace ([] : List Char)).head? ≠ some '"' ∧
      (skipWhitespace ([] : List Char)).head? ≠ some '{' ∧
      parse "\"K\"" false = .error "Unexpected end of input: missing value for root key" ∧
      parseString (skipWhitespace "\"A\" \x7d".data) false = .ok (some "A", [' ', '}']) ∧
      (skipWhitespace [' ', '}']).head? ≠ some '"' ∧
      (skipWhitespace [' ', '}']).head? ≠ some '{' ∧
      parseTableLoopF false (0+2) [] "\"A\" \x7d".data =
        some (.error "Unexpected end of input: missing value") :=
  ⟨by with_unfolding_all rfl, by decide, by decide,
    c5_missing_value.1 "\"K\"" false "K" [] (by with_unfolding_all rfl) (by decide) (by decide),
    by with_unfolding_all rfl, by with_unfolding_all decide, by with_unfolding_all decide,
    c5_missing_value.2.1 false 0 [] "\"A\" \x7d".data "A" [' ', '}']
      (by with_unfolding_all rfl) (by with_unfolding_all decide)
      (by with_unfolding_all decide)⟩

/-- Claim C6: deleting every `//` comment that occurs outside a quoted
string (each running to the next newline, carriage return or end of
input) never changes the parse result, while `//` inside a quoted string
is no comment: it stays in the scalar literally. -/
theorem c6_comments :
    (∀ (s : String) (lossy : Bool),
        parse (String.mk (stripCM .out s.data)) lossy = parse s lossy) ∧
    parse "\"K\" \"a//b\"" false = .ok (.table [("K", .value "a//b")]) ∧
    stripCM .out "\"K\" \"a//b\" // note".data = "\"K\" \"a//b\" ".data ∧
    parse "\"K\" \"V\" // note" false = .ok (.table [("K", .value "V")]) :=
  ⟨parse_strip, by with_unfolding_all rfl, by with_unfolding_all rfl,
    by with_unfolding_all rfl⟩

/-- Claim C7: the tree mirrors the brace structure: for every key and
every canonically ordered tree value, the rendered input (nested braces
matching the tree) parses back to exactly that tree under the root key;
and the specification's concrete nested example parses as stated. -/
theorem c7_nested (k : String) (v : VdfValue) (lossy : Bool) (h : canonical v = true) :
    parse (String.mk (renderString k.data ++ render v)) lossy = .ok (.table [(k, v)]) ∧
    parse "\"Root\"\n\x7b\n  \"A\" \"1\"\n  \"B\"\n  \x7b\n    \"C\" \"2\"\n  \x7d\n\x7d" false =
      .ok (.table [("Root", .table [("A", .value "1"), ("B", .table [("C", .value "2")])])]) := by
  constructor
  · apply parse_eq
    have hps : parseString
        (String.mk (renderString k.data ++ render v)).data lossy =
        .ok (some k, render v) := by
      rw [String_data_mk]
      have h0 := parseString_render lossy k.data (render v)
      rw [String_mk_data] at h0
      exact h0
    rw [parseF_key _ hps]
    have hlen : (render v ++ []).length <
        (String.mk (renderString k.data ++ render v)).data.length + 1 := by
      show (render v ++ []).length < (renderString k.data ++ render v).length + 1
      simp
      omega
    have hrt := (renderVT_roundtrip
      ((String.mk (renderString k.data ++ render v)).data.length + 1)).1 lossy v [] h hlen
    rw [List.append_nil] at hrt
    rw [hrt]
    rfl
  · with_unfolding_all rfl

/-- Claim C7, witness at the specification's nested example tree. -/
theorem c7_witness :
    canonical (VdfValue.table [("A", .value "1"), ("B", .table [("C", .value "2")])]) = true ∧
      (parse (String.mk (renderString "Root".data ++
          render (VdfValue.table [("A", .value "1"), ("B", .table [("C", .value "2")])]))) false =
        .ok (.table [("Root",
          VdfValue.table [("A", .value "1"), ("B", .table [("C", .value "2")])])]) ∧
      parse "\"Root\"\n\x7b\n  \"A\" \"1\"\n  \"B\"\n  \x7b\n    \"C\" \"2\"\n  \x7d\n\x7d" false =
        .ok (.table [("Root", .table [("A", .value "1"), ("B", .table [("C", .value "2")])])])) :=
  ⟨by with_unfolding_all rfl,
    c7_nested "Root" (VdfValue.table [("A", .value "1"), ("B", .table [("C", .value "2")])])
      false (by with_unfolding_all rfl)⟩

/-- Claim C8: inside a table, when after whitespace/comment skipping the
next character is neither `'"'` nor `'}'`, the table loop fails with the
unexpected-token error; moreover a lone `'/'` (one not followed by
another `'/'`) is never consumed by the skipper, so it is left for this
rejection, as in the concrete input `"K"{/}`. -/
theorem c8_unexpected_token (lossy : Bool) (fuel : Nat) (tbl : List (String × VdfValue))
    (cs : List Char) (h1 : (skipWhitespace cs).head? ≠ some '"')
    (h2 : (skipWhitespace cs).head? ≠ some '}') :
    parseTableLoopF lossy (fuel+1) tbl cs =
      some (.error "Unexpected token in table: expected key or '\x7d'") ∧
    (∀ (c : Char) (cs' : List Char), c ≠ '/' →
      skipWhitespace ('/' :: c :: cs') = '/' :: c :: cs') ∧
    skipWhitespace ['/'] = ['/'] ∧
    parse "\"K\"\x7b/\x7d" false = .error "Unexpected token in table: expected key or '\x7d'" := by
  refine ⟨?_, fun c cs' hc => skipAux_slash cs' hc, skipAux_slash_nil,
    by with_unfolding_all rfl⟩
  have hps : parseString (skipWhitespace cs) lossy = .ok (none, skipWhitespace cs) := by
    cases hw : skipWhitespace cs with
    | nil => exact parseString_eq_nil lossy (by rw [← hw, skipWhitespace_idem, hw])
    | cons c t =>
      have hc : c ≠ '"' := by
        intro e
        rw [hw, e] at h1
        simp at h1
      exact parseString_eq_other lossy (by rw [← hw, skipWhitespace_idem, hw]) hc
  exact parseTableLoopF_go_nokey_error fuel tbl rfl h2 hps

/-- Claim C8, witness at a table whose next character is a lone slash. -/
theorem c8_witness :
    (skipWhitespace "/a".data).head? ≠ some '"' ∧
      (skipWhitespace "/a".data).head? ≠ some '}' ∧
      (parseTableLoopF false (0+1) [] "/a".data =
          some (.error "Unexpected token in table: expected key or '\x7d'") ∧
        (∀ (c : Char) (cs' : List Char), c ≠ '/' →
          skipWhitespace ('/' :: c :: cs') = '/' :: c :: cs') ∧
        skipWhitespace ['/'] = ['/'] ∧
        parse "\"K\"\x7b/\x7d" false =
          .error "Unexpected token in table: expected key or '\x7d'") :=
  ⟨by with_unfolding_all decide, by with_unfolding_all decide,
    c8_unexpected_token false 0 [] "/a".data (by with_unfolding_all decide)
      (by with_unfolding_all decide)⟩

/-- Claim C9: even with lossy mode, input that is a single unclosed
quoted string (and nothing after it) does not succeed: the lexeme is
rescued as the root key, but no value follows, so `parse` fails with the
missing-value-for-root-key error; concretely for the input `"abc`. -/
theorem c9_lossy_unclosed_root :
    (∀ s : String, parse (String.mk ('"' :: escapeChars s.data)) true =
        .error "Unexpected end of input: missing value for root key") ∧
    parse "\"abc" true = .error "Unexpected end of input: missing value for root key" := by
  refine ⟨?_, by with_unfolding_all rfl⟩
  intro s
  apply parse_eq
  have hps : parseString (String.mk ('"' :: escapeChars s.data)).data true =
      .ok (some s, []) := by
    show parseString ('"' :: escapeChars s.data) true = _
    rw [parseString_render_eoi]
    simp [String_mk_data]
  rw [parseF_key _ hps]
  rw [parseValueF_succ_other true _ (show skipWhitespace [] = [] from rfl)
    (by simp) (by simp)]

/-- Claim C10: a backslash that is the last character of the input is
silently dropped: the end-of-input case of the lexer loop ignores the
pending escaped state and returns only the accumulated literal (or the
unclosed-string error when not lossy); concretely `"K" "V\` with lossy
yields the scalar `V`. -/
theorem c10_trailing_backslash :
    (∀ (lossy : Bool) (acc : List Char) (esc : Bool),
        parseStringLoop lossy [] acc esc =
          if lossy then .ok (⟨acc⟩, []) else
            .error "Unexpected end of input: unclosed string") ∧
    (∀ (lossy : Bool) (acc : List Char),
        parseStringLoop lossy ['\\'] acc false =
          if lossy then .ok (⟨acc⟩, []) else
            .error "Unexpected end of input: unclosed string") ∧
    parse "\"K\" \"V\\" true = .ok (.table [("K", .value "V")]) := by
  refine ⟨fun lossy acc esc => parseStringLoop_nil lossy acc esc, ?_,
    by with_unfolding_all rfl⟩
  intro lossy acc
  rw [parseStringLoop_escape, parseStringLoop_nil]

end Vdf
